import Mathlib

/-!
Shallow embedding of the Mastermind solver (src/main.rs) and proofs of the
specified properties.  Rust `u32` values are modelled as `Nat` (the program
never relies on wrap-around: all arithmetic stays far below 2^32 for the
configurations the matrix can hold, and the spec treats overflow as a fatal
configuration error).  Rust `Vec` becomes `List`; a Rust index panic is
modelled either by `Option` (where a claim is about the failure) or by a
defaulted lookup `List.getD` together with a separately proved bounds
invariant.
-/

/-- Feedback value of one guess against one pattern: `exact_count` exact
positional matches plus `color_count` additional colour-only matches.
Mirrors the Rust struct `MatchKeys` (fields in declaration order). -/
structure MatchKeys where
  exact_count : Nat
  color_count : Nat
deriving DecidableEq

/-- Rust `MatchKeys::new`. -/
def MatchKeys.new (exact_count color_count : Nat) : MatchKeys :=
  ⟨exact_count, color_count⟩

/-- Board configuration, Rust struct `Board`. -/
structure Board where
  color_count : Nat
  hole_count : Nat

/-- Rust `Board::new`. -/
def Board.new (color_count hole_count : Nat) : Board :=
  ⟨color_count, hole_count⟩

/-- Rust `Board::total_pattern_count`: `color_count.pow(hole_count)`. -/
def Board.total_pattern_count (b : Board) : Nat :=
  b.color_count ^ b.hole_count

/-- One `+= 1` on slot `i` of a tally vector (`colors[i] += 1` in Rust).
The index is always in bounds when the vector has length `color_count`,
since it is a residue mod `color_count`. -/
def bump (l : List Nat) (i : Nat) : List Nat :=
  l.set i (l.getD i 0 + 1)

/-- The digit loop of `Board::compute_match`: walks `holes` base-`c` digits
of `pattern` and `guess` (least significant first, by repeated `%`/`/`),
counting exact matches and tallying the colours of differing digit pairs
into the two tally vectors. -/
def matchLoop (c : Nat) :
    Nat → Nat → Nat → Nat → List Nat → List Nat → Nat × List Nat × List Nat
  | 0, _, _, exact, pcolors, gcolors => (exact, pcolors, gcolors)
  | holes + 1, pattern, guess, exact, pcolors, gcolors =>
    if pattern % c = guess % c then
      matchLoop c holes (pattern / c) (guess / c) (exact + 1) pcolors gcolors
    else
      matchLoop c holes (pattern / c) (guess / c) exact
        (bump pcolors (pattern % c)) (bump gcolors (guess % c))

/-- Rust `Board::compute_match`: exact matches per digit position, and the
colour-match count as the sum of the digit-wise minima of the two tallies. -/
def Board.compute_match (b : Board) (pattern guess : Nat) : MatchKeys :=
  let init : List Nat := List.replicate b.color_count 0
  let r := matchLoop b.color_count b.hole_count pattern guess 0 init init
  ⟨r.1, (List.zipWith min r.2.1 r.2.2).sum⟩

/-- The digit-decoding loop of `Board::pattern_to_string`: produces the
digit symbols least significant first (the Rust code reverses afterwards).
An out-of-alphabet digit never occurs when the alphabet has length
`color_count`. -/
def digitChars (c : Nat) : Nat → Nat → List Char → List Char
  | 0, _, _ => []
  | holes + 1, pattern, cs =>
    cs.getD (pattern % c) 'A' :: digitChars c holes (pattern / c) cs

/-- Rust `Board::pattern_to_string` (the `String` is modelled as its
character list): decode most-significant-first. -/
def Board.pattern_to_string (b : Board) (pattern : Nat) (color_chars : List Char) :
    List Char :=
  (digitChars b.color_count b.hole_count pattern color_chars).reverse

/-- Rust `Board::string_to_pattern`.  The Rust code unwraps the position
lookup, so a symbol outside the alphabet is a panic; `none` models that
failure. -/
def Board.string_to_pattern (b : Board) (s : List Char) (color_chars : List Char) :
    Option Nat :=
  s.foldlM
    (fun acc ch =>
      (color_chars.findIdx? (fun x => x == ch)).map
        (fun d => acc * b.color_count + d))
    0

/-- Solver state, Rust struct `Game`. -/
structure Game where
  board : Board
  «matches» : List (List MatchKeys)
  pattern_list : List Nat

/-- Rust `compute_all_matches`: the full pattern-by-pattern feedback table,
`matches[pattern][guess] = compute_match(pattern, guess)`. -/
def compute_all_matches (board : Board) : List (List MatchKeys) :=
  (List.range board.total_pattern_count).map fun pattern =>
    (List.range board.total_pattern_count).map fun guess =>
      board.compute_match pattern guess

/-- Rust `Game::new`. -/
def Game.new (color_count hole_count : Nat) : Game :=
  let board := Board.new color_count hole_count
  { board := board
    «matches» := compute_all_matches board
    pattern_list := List.range board.total_pattern_count }

/-- Matrix lookup `self.matches[g][p]`.  Rust panics when an index is out of
range; the defaulted lookup is only ever used through the bounds invariant
proved below, under which it agrees with the real entry. -/
def Game.entry (G : Game) (g p : Nat) : MatchKeys :=
  (G.matches.getD g []).getD p ⟨0, 0⟩

/-- The `possibles` vector built inside `Game::get_guess`: the guess's
matrix row projected onto the live candidate list, in candidate order. -/
def Game.projKeys (G : Game) (g : Nat) : List MatchKeys :=
  G.pattern_list.map fun p => G.entry g p

/-- The order `possibles.sort()` sorts by: the derived Rust `Ord` on
`MatchKeys`, lexicographic on `(exact_count, color_count)`. -/
def keyLe (a b : MatchKeys) : Prop :=
  a.exact_count < b.exact_count ∨
    (a.exact_count = b.exact_count ∧ a.color_count ≤ b.color_count)

instance : DecidableRel keyLe := fun a b => by
  unfold keyLe; exact inferInstance

instance : IsTotal MatchKeys keyLe := ⟨fun a b => by unfold keyLe; omega⟩

instance : IsTrans MatchKeys keyLe := ⟨fun a b c => by unfold keyLe; omega⟩

/-- `possibles.sort()`. -/
def sortKeys (l : List MatchKeys) : List MatchKeys :=
  List.insertionSort keyLe l

/-- The run-length scan over the sorted `possibles` in `Game::get_guess`:
computes `(row_max, total_length)` — the longest run of equal keys and the
sum of the squared run lengths.  The Rust `while` loop consumes the slice
one run at a time; the `fuel` argument (instantiated with the list length,
which the run-by-run consumption never exhausts) makes that recursion
structural. -/
def runScanAux : Nat → List MatchKeys → Nat × Nat
  | _, [] => (0, 0)
  | 0, _ :: _ => (0, 0)
  | fuel + 1, k :: rest =>
    let gl := 1 + (rest.takeWhile (fun x => x == k)).length
    let mt := runScanAux fuel (rest.dropWhile (fun x => x == k))
    (max gl mt.1, gl ^ 2 + mt.2)

/-- The `(row_max, total_length)` scan of a (sorted) key list. -/
def runScan (l : List MatchKeys) : Nat × Nat :=
  runScanAux l.length l

/-- The `(row_max, total_length)` pair `Game::get_guess` computes for one
candidate guess. -/
def Game.guessScore (G : Game) (g : Nat) : Nat × Nat :=
  runScan (sortKeys (G.projKeys g))

/-- The strictly-better test of the running-best update in `get_guess`:
smaller `row_max`, or equal `row_max` and smaller `total_length`. -/
def better (s t : Nat × Nat) : Prop :=
  s.1 < t.1 ∨ (s.1 = t.1 ∧ s.2 < t.2)

instance : DecidableRel better := fun s t => by
  unfold better; exact inferInstance

/-- One iteration of the best-guess fold in `Game::get_guess`. -/
def bestStep (G : Game) (best : Option (Nat × Nat × Nat)) (guess : Nat) :
    Option (Nat × Nat × Nat) :=
  let s := G.guessScore guess
  match best with
  | none => some (s.1, s.2, guess)
  | some (bm, bt, bg) =>
    if better s (bm, bt) then some (s.1, s.2, guess) else some (bm, bt, bg)

/-- The best-guess fold of `Game::get_guess` over guesses `0..n`. -/
def bestUpTo (G : Game) (n : Nat) : Option (Nat × Nat × Nat) :=
  (List.range n).foldl (bestStep G) none

/-- Rust `Game::get_guess`.  `none` models a Rust panic: indexing
`pattern_list[0]` on an empty candidate list in the shortcut branch, or
`best.unwrap()` when the pattern universe is empty.  The Rust return type
`(u32, u32)` has no explicit error channel. -/
def Game.get_guess (G : Game) : Option (Nat × Nat) :=
  if G.pattern_list.length ≤ 2 then
    match G.pattern_list with
    | [] => none
    | p :: _ => some (p, G.pattern_list.length)
  else
    (bestUpTo G G.matches.length).map fun b => (b.2.2, G.pattern_list.length)

/-- Rust `Game::apply_match`: retain exactly the candidates whose matrix
entry against the guess equals the observed feedback. -/
def Game.apply_match (G : Game) (guess : Nat) (mk : MatchKeys) : Game :=
  { G with pattern_list := G.pattern_list.filter fun p => G.entry guess p == mk }

/-- The automated play loop (the `count_guesses` / `play_auto` loop, with
feedback computed against the fixed secret, and without the lucky-guess
early exit, which the convergence property does not use): stop as soon as
`get_guess` reports a single possibility, otherwise filter and continue.
`fuel` bounds the number of turns. -/
def playLoop (secret : Nat) : Nat → Game → Game
  | 0, G => G
  | fuel + 1, G =>
    match G.get_guess with
    | none => G
    | some (guess, possibles) =>
      if possibles = 1 then G
      else playLoop secret fuel
        (G.apply_match guess (G.board.compute_match guess secret))

/-- Size of the largest equal-key group of a list of feedback values
(the worst-case number of candidates left after playing the guess). -/
def maxGroup (l : List MatchKeys) : Nat :=
  l.toFinset.sup fun k => l.count k

/-- Sum of the squared sizes of the equal-key groups (the tie-break
statistic). -/
def sumSqGroup (l : List MatchKeys) : Nat :=
  l.toFinset.sum fun k => l.count k ^ 2

/-- Structural well-formedness of a solver state: the candidate list is
strictly increasing and all its entries index into the square feedback
matrix. -/
def Game.WF (G : Game) : Prop :=
  List.Sorted (· < ·) G.pattern_list ∧
  (∀ p ∈ G.pattern_list, p < G.matches.length) ∧
  (∀ row ∈ G.matches, row.length = G.matches.length)

/-- Full solver invariant: the feedback matrix is the one computed from the
board, and the candidate list is a strictly increasing list of patterns of
the board's universe. -/
def Game.Inv (G : Game) : Prop :=
  G.matches = compute_all_matches G.board ∧
  List.Sorted (· < ·) G.pattern_list ∧
  ∀ p ∈ G.pattern_list, p < G.board.total_pattern_count

/-- A state two filtering turns after `Game::new(3, 2)`: feedback `(1,0)`
on guess 4 then `(0,0)` on guess 0 leaves the two candidates `[5, 7]`. -/
def exGame : Game :=
  ((Game.new 3 2).apply_match 4 ⟨1, 0⟩).apply_match 0 ⟨0, 0⟩

/-- A state whose candidate set has been emptied by inconsistent feedback:
no pattern's feedback against guess 0 on the 3-colour 2-hole board is
`(0,1)`. -/
def exEmpty : Game :=
  (Game.new 3 2).apply_match 0 ⟨0, 1⟩

/-! Lemmas about the digit loop and `compute_match`. -/

lemma bump_length (l : List Nat) (i : Nat) : (bump l i).length = l.length := by
  simp [bump]

lemma bump_sum (l : List Nat) (i : Nat) (h : i < l.length) :
    (bump l i).sum = l.sum + 1 := by
  induction l generalizing i with
  | nil => simp at h
  | cons x xs ih =>
    cases i with
    | zero => simp [bump]; omega
    | succ j =>
      have hj : j < xs.length := by simpa using h
      have hx := ih j hj
      simp only [bump, List.getD_cons_succ, List.set_cons_succ, List.sum_cons] at *
      omega

lemma sum_zipWith_min_le (a : List Nat) :
    ∀ b : List Nat, (List.zipWith min a b).sum ≤ a.sum := by
  induction a with
  | nil => intro b; simp
  | cons x xs ih =>
    intro b
    cases b with
    | nil => simp
    | cons y ys =>
      have h1 := ih ys
      have h2 : min x y ≤ x := min_le_left _ _
      simp only [List.zipWith_cons_cons, List.sum_cons]
      omega

lemma matchLoop_exact_le (c h : Nat) :
    ∀ (p g e : Nat) (pc gc : List Nat), (matchLoop c h p g e pc gc).1 ≤ e + h := by
  induction h with
  | zero => intro p g e pc gc; simp [matchLoop]
  | succ n ih =>
    intro p g e pc gc
    simp only [matchLoop]
    split
    · have := ih (p / c) (g / c) (e + 1) pc gc
      omega
    · have := ih (p / c) (g / c) e (bump pc (p % c)) (bump gc (g % c))
      omega

lemma matchLoop_sum (c : Nat) (hc : 0 < c) (h : Nat) :
    ∀ (p g e : Nat) (pc gc : List Nat), pc.length = c →
      (matchLoop c h p g e pc gc).1 + (matchLoop c h p g e pc gc).2.1.sum
          = e + pc.sum + h
        ∧ (matchLoop c h p g e pc gc).2.1.length = c := by
  induction h with
  | zero => intro p g e pc gc hl; simp [matchLoop, hl]
  | succ n ih =>
    intro p g e pc gc hl
    simp only [matchLoop]
    split
    · have := ih (p / c) (g / c) (e + 1) pc gc hl
      omega
    · have hblen : (bump pc (p % c)).length = c := by rw [bump_length, hl]
      have hbsum : (bump pc (p % c)).sum = pc.sum + 1 :=
        bump_sum _ _ (by rw [hl]; exact Nat.mod_lt _ hc)
      have := ih (p / c) (g / c) e (bump pc (p % c)) (bump gc (g % c)) hblen
      omega

lemma matchLoop_symm (c h : Nat) :
    ∀ (p g e : Nat) (pc gc : List Nat),
      matchLoop c h g p e gc pc =
        ((matchLoop c h p g e pc gc).1,
          (matchLoop c h p g e pc gc).2.2,
          (matchLoop c h p g e pc gc).2.1) := by
  induction h with
  | zero => intro p g e pc gc; simp [matchLoop]
  | succ n ih =>
    intro p g e pc gc
    simp only [matchLoop]
    by_cases hd : p % c = g % c
    · rw [if_pos hd.symm, if_pos hd]
      exact ih (p / c) (g / c) (e + 1) pc gc
    · rw [if_neg (fun hh => hd hh.symm), if_neg hd]
      exact ih (p / c) (g / c) e (bump pc (p % c)) (bump gc (g % c))

lemma compute_match_symm (b : Board) (p g : Nat) :
    b.compute_match p g = b.compute_match g p := by
  simp only [Board.compute_match]
  rw [matchLoop_symm]
  simp only []
  congr 1
  rw [List.zipWith_comm_of_comm min (fun x y => Nat.min_comm x y)]

lemma matchLoop_self (c h : Nat) :
    ∀ (p e : Nat) (pc gc : List Nat), matchLoop c h p p e pc gc = (e + h, pc, gc) := by
  induction h with
  | zero => intro p e pc gc; simp [matchLoop]
  | succ n ih =>
    intro p e pc gc
    simp only [matchLoop, if_pos rfl]
    rw [ih (p / c) (e + 1) pc gc]
    simp; omega

lemma compute_match_self (b : Board) (p : Nat) :
    b.compute_match p p = ⟨b.hole_count, 0⟩ := by
  simp only [Board.compute_match]
  rw [matchLoop_self]
  have hz : (List.zipWith min (List.replicate b.color_count 0)
      (List.replicate b.color_count 0)).sum ≤
        (List.replicate b.color_count (0 : Nat)).sum :=
    sum_zipWith_min_le _ _
  simp at hz
  simp [hz]

lemma matchLoop_exact_full (c h : Nat) :
    ∀ (p g e : Nat) (pc gc : List Nat),
      (matchLoop c h p g e pc gc).1 = e + h → p % c ^ h = g % c ^ h := by
  induction h with
  | zero => intro p g e pc gc _; simp [Nat.mod_one]
  | succ n ih =>
    intro p g e pc gc heq
    simp only [matchLoop] at heq
    split at heq
    · rename_i hd
      have hrec := ih (p / c) (g / c) (e + 1) pc gc (by omega)
      have hp : p % c ^ (n + 1) = p % c + c * (p / c % c ^ n) := by
        rw [pow_succ, mul_comm (c ^ n) c]; exact Nat.mod_mul
      have hg : g % c ^ (n + 1) = g % c + c * (g / c % c ^ n) := by
        rw [pow_succ, mul_comm (c ^ n) c]; exact Nat.mod_mul
      rw [hp, hg, hd, hrec]
    · have := matchLoop_exact_le c n (p / c) (g / c) e
        (bump pc (p % c)) (bump gc (g % c))
      omega

lemma compute_match_exact_eq_iff (b : Board) {p g : Nat}
    (hp : p < b.total_pattern_count) (hg : g < b.total_pattern_count) :
    (b.compute_match p g).exact_count = b.hole_count ↔ p = g := by
  obtain ⟨c, h⟩ := b
  simp only [Board.total_pattern_count] at hp hg
  constructor
  · intro he
    simp only [Board.compute_match] at he
    have := matchLoop_exact_full c h p g 0 _ _ (by simpa using he)
    rwa [Nat.mod_eq_of_lt hp, Nat.mod_eq_of_lt hg] at this
  · rintro rfl
    rw [compute_match_self]

lemma compute_match_eq_self_iff (b : Board) {p g : Nat}
    (hp : p < b.total_pattern_count) (hg : g < b.total_pattern_count) :
    b.compute_match p g = ⟨b.hole_count, 0⟩ ↔ p = g := by
  constructor
  · intro he
    exact (compute_match_exact_eq_iff b hp hg).1 (by rw [he])
  · rintro rfl
    exact compute_match_self _ _

/-! Lemmas about the sort-and-scan grouping step of `get_guess`. -/

lemma keyLe_antisymm {a b : MatchKeys} (h1 : keyLe a b) (h2 : keyLe b a) :
    a = b := by
  cases a; cases b
  simp only [keyLe] at h1 h2
  simp only [MatchKeys.mk.injEq]
  omega

lemma not_mem_dropWhile_sorted :
    ∀ (rest : List MatchKeys) (k : MatchKeys), List.Sorted keyLe rest →
      (∀ x ∈ rest, keyLe k x) → k ∉ rest.dropWhile (fun x => x == k) := by
  intro rest
  induction rest with
  | nil => intro k _ _; simp
  | cons x rs ih =>
    intro k hs hk
    rw [List.dropWhile_cons]
    by_cases hx : x = k
    · simp only [hx, beq_self_eq_true, if_true]
      exact ih k hs.of_cons fun y hy => hk y (List.mem_cons_of_mem _ hy)
    · have hb : (x == k) = false := beq_eq_false_iff_ne.mpr hx
      simp only [hb, Bool.false_eq_true, if_false]
      intro hmem
      rcases List.mem_cons.mp hmem with h1 | h1
      · exact hx h1.symm
      · have hxk : keyLe x k := (List.sorted_cons.mp hs).1 k h1
        have hkx : keyLe k x := hk x (List.mem_cons_self _ _)
        exact hx (keyLe_antisymm hxk hkx)

lemma takeWhile_all_eq (l : List MatchKeys) (k : MatchKeys) :
    ∀ x ∈ l.takeWhile (fun x => x == k), x = k := by
  intro x hx
  simpa using List.mem_takeWhile_imp hx

lemma count_head_sorted (k : MatchKeys) (rest : List MatchKeys)
    (hs : List.Sorted keyLe (k :: rest)) :
    (k :: rest).count k = 1 + (rest.takeWhile (fun x => x == k)).length := by
  have hknotin : k ∉ rest.dropWhile (fun x => x == k) :=
    not_mem_dropWhile_sorted rest k hs.of_cons (List.sorted_cons.mp hs).1
  have hsplit : rest.takeWhile (fun x => x == k) ++ rest.dropWhile (fun x => x == k)
      = rest := List.takeWhile_append_dropWhile _ _
  have h1 : (rest.takeWhile (fun x => x == k)).count k
      = (rest.takeWhile (fun x => x == k)).length :=
    List.count_eq_length.mpr fun b hb => (takeWhile_all_eq rest k b hb).symm
  have h2 : (rest.dropWhile (fun x => x == k)).count k = 0 :=
    List.count_eq_zero.mpr hknotin
  calc (k :: rest).count k = rest.count k + 1 := by
        simp [List.count_cons]
    _ = (rest.takeWhile (fun x => x == k) ++ rest.dropWhile (fun x => x == k)).count k
          + 1 := by rw [hsplit]
    _ = 1 + (rest.takeWhile (fun x => x == k)).length := by
        rw [List.count_append, h1, h2]; omega

lemma count_tail_sorted (k k' : MatchKeys) (rest : List MatchKeys)
    (hne : k' ≠ k) :
    (k :: rest).count k' = (rest.dropWhile (fun x => x == k)).count k' := by
  have hsplit : rest.takeWhile (fun x => x == k) ++ rest.dropWhile (fun x => x == k)
      = rest := List.takeWhile_append_dropWhile _ _
  have h1 : (rest.takeWhile (fun x => x == k)).count k' = 0 :=
    List.count_eq_zero.mpr fun hmem => hne (takeWhile_all_eq rest k k' hmem)
  calc (k :: rest).count k' = rest.count k' := by
        simp [List.count_cons, (beq_eq_false_iff_ne.mpr (fun h => hne h.symm) : (k == k') = false)]
    _ = (rest.takeWhile (fun x => x == k) ++ rest.dropWhile (fun x => x == k)).count k' := by
        rw [hsplit]
    _ = (rest.dropWhile (fun x => x == k)).count k' := by
        rw [List.count_append, h1]; omega

lemma toFinset_head (k : MatchKeys) (rest : List MatchKeys) :
    (k :: rest).toFinset = insert k (rest.dropWhile (fun x => x == k)).toFinset := by
  apply Finset.ext
  intro x
  simp only [List.mem_toFinset, Finset.mem_insert, List.mem_cons]
  constructor
  · rintro (rfl | hx)
    · exact Or.inl rfl
    · rw [← List.takeWhile_append_dropWhile (fun x => x == k) rest] at hx
      rcases List.mem_append.mp hx with h1 | h1
      · exact Or.inl (takeWhile_all_eq rest k x h1)
      · exact Or.inr h1
  · rintro (rfl | hx)
    · exact Or.inl rfl
    · exact Or.inr ((List.dropWhile_sublist _).mem hx)

lemma maxGroup_head_sorted (k : MatchKeys) (rest : List MatchKeys)
    (hs : List.Sorted keyLe (k :: rest)) :
    maxGroup (k :: rest)
      = max ((k :: rest).count k)
          (maxGroup (rest.dropWhile (fun x => x == k))) := by
  have hknotin : k ∉ rest.dropWhile (fun x => x == k) :=
    not_mem_dropWhile_sorted rest k hs.of_cons (List.sorted_cons.mp hs).1
  unfold maxGroup
  rw [toFinset_head, Finset.sup_insert, sup_eq_max]
  congr 1
  apply Finset.sup_congr rfl
  intro x hx
  have hxk : x ≠ k := by
    intro he
    subst he
    exact hknotin (List.mem_toFinset.mp hx)
  exact count_tail_sorted k x rest hxk

lemma sumSqGroup_head_sorted (k : MatchKeys) (rest : List MatchKeys)
    (hs : List.Sorted keyLe (k :: rest)) :
    sumSqGroup (k :: rest)
      = ((k :: rest).count k) ^ 2
          + sumSqGroup (rest.dropWhile (fun x => x == k)) := by
  have hknotin : k ∉ rest.dropWhile (fun x => x == k) :=
    not_mem_dropWhile_sorted rest k hs.of_cons (List.sorted_cons.mp hs).1
  unfold sumSqGroup
  rw [toFinset_head, Finset.sum_insert (by simpa using hknotin)]
  congr 1
  apply Finset.sum_congr rfl
  intro x hx
  have hxk : x ≠ k := by
    intro he
    subst he
    exact hknotin (List.mem_toFinset.mp hx)
  rw [count_tail_sorted k x rest hxk]

lemma runScanAux_sorted :
    ∀ (n : Nat) (l : List MatchKeys), l.length ≤ n → List.Sorted keyLe l →
      runScanAux n l = (maxGroup l, sumSqGroup l) := by
  intro n
  induction n with
  | zero =>
    intro l hl _
    have hnil : l = [] := List.eq_nil_of_length_eq_zero (Nat.le_zero.mp hl)
    subst hnil
    simp [runScanAux, maxGroup, sumSqGroup]
  | succ n ih =>
    intro l hl hs
    cases l with
    | nil => simp [runScanAux, maxGroup, sumSqGroup]
    | cons k rest =>
      have hdlen : (rest.dropWhile (fun x => x == k)).length ≤ n := by
        have h1 : (rest.dropWhile (fun x => x == k)).length ≤ rest.length :=
          List.Sublist.length_le (List.dropWhile_sublist _)
        have h2 : rest.length + 1 ≤ n + 1 := by simpa using hl
        omega
      have hdsorted : List.Sorted keyLe (rest.dropWhile (fun x => x == k)) :=
        List.Pairwise.sublist (List.dropWhile_sublist _) hs.of_cons
      have hrec := ih (rest.dropWhile (fun x => x == k)) hdlen hdsorted
      simp only [runScanAux]
      rw [hrec]
      rw [maxGroup_head_sorted k rest hs, sumSqGroup_head_sorted k rest hs,
        count_head_sorted k rest hs]

lemma runScan_sorted (l : List MatchKeys) (hs : List.Sorted keyLe l) :
    runScan l = (maxGroup l, sumSqGroup l) :=
  runScanAux_sorted l.length l (le_refl _) hs

lemma toFinset_perm {l₁ l₂ : List MatchKeys} (h : l₁.Perm l₂) :
    l₁.toFinset = l₂.toFinset := by
  apply Finset.ext
  intro x
  simp [List.mem_toFinset, h.mem_iff]

lemma maxGroup_perm {l₁ l₂ : List MatchKeys} (h : l₁.Perm l₂) :
    maxGroup l₁ = maxGroup l₂ := by
  unfold maxGroup
  rw [toFinset_perm h]
  exact Finset.sup_congr rfl fun x _ => h.count_eq x

lemma sumSqGroup_perm {l₁ l₂ : List MatchKeys} (h : l₁.Perm l₂) :
    sumSqGroup l₁ = sumSqGroup l₂ := by
  unfold sumSqGroup
  rw [toFinset_perm h]
  exact Finset.sum_congr rfl fun x _ => by rw [h.count_eq x]

lemma guessScore_eq (G : Game) (g : Nat) :
    G.guessScore g = (maxGroup (G.projKeys g), sumSqGroup (G.projKeys g)) := by
  unfold Game.guessScore
  have hperm : (sortKeys (G.projKeys g)).Perm (G.projKeys g) :=
    List.perm_insertionSort _ _
  have hsorted : List.Sorted keyLe (sortKeys (G.projKeys g)) :=
    List.sorted_insertionSort _ _
  rw [runScan_sorted _ hsorted]
  rw [maxGroup_perm hperm, sumSqGroup_perm hperm]

/-! Lemmas about the running-best fold of `get_guess`. -/

lemma better_irrefl (s : Nat × Nat) : ¬ better s s := by
  unfold better; omega

lemma better_trans {a b c : Nat × Nat} (h1 : better a b) (h2 : better b c) :
    better a c := by
  unfold better at *; omega

lemma better_of_better_of_not_better {a b c : Nat × Nat}
    (h1 : better a b) (h2 : ¬ better c b) : better a c := by
  unfold better at *; omega

lemma bestUpTo_succ (G : Game) (n : Nat) :
    bestUpTo G (n + 1) = bestStep G (bestUpTo G n) n := by
  unfold bestUpTo
  rw [List.range_succ, List.foldl_append]
  rfl

lemma bestUpTo_spec (G : Game) :
    ∀ n : Nat, 0 < n → ∃ m t g, bestUpTo G n = some (m, t, g) ∧ g < n ∧
      G.guessScore g = (m, t) ∧
      (∀ g' < n, ¬ better (G.guessScore g') (m, t)) ∧
      ∀ g' < g, better (m, t) (G.guessScore g') := by
  intro n
  induction n with
  | zero => intro h; exact absurd h (Nat.lt_irrefl 0)
  | succ n ih =>
    intro _
    by_cases hn : 0 < n
    · obtain ⟨m, t, g, hbest, hg, hscore, hopt, hfirst⟩ := ih hn
      rw [bestUpTo_succ, hbest]
      have hstep : bestStep G (some (m, t, g)) n =
          if better (G.guessScore n) (m, t) then
            some ((G.guessScore n).1, (G.guessScore n).2, n)
          else some (m, t, g) := rfl
      rw [hstep]
      by_cases hb : better (G.guessScore n) (m, t)
      · rw [if_pos hb]
        refine ⟨(G.guessScore n).1, (G.guessScore n).2, n, rfl,
          Nat.lt_succ_self n, rfl, ?_, ?_⟩
        · intro g' hg'
          rcases Nat.lt_succ_iff_lt_or_eq.mp hg' with h1 | h1
          · intro hcon
            have hsn : better (G.guessScore g') (m, t) := by
              refine better_trans hcon ?_
              simpa using hb
            exact hopt g' h1 hsn
          · subst h1
            simpa using better_irrefl (G.guessScore g')
        · intro g' hg'
          refine better_of_better_of_not_better ?_ (hopt g' (by omega))
          simpa using hb
      · rw [if_neg hb]
        refine ⟨m, t, g, rfl, by omega, hscore, ?_, hfirst⟩
        intro g' hg'
        rcases Nat.lt_succ_iff_lt_or_eq.mp hg' with h1 | h1
        · exact hopt g' h1
        · subst h1; exact hb
    · have hn0 : n = 0 := by omega
      subst hn0
      rw [bestUpTo_succ]
      have h0 : bestStep G (bestUpTo G 0) 0 =
          some ((G.guessScore 0).1, (G.guessScore 0).2, 0) := rfl
      rw [h0]
      refine ⟨(G.guessScore 0).1, (G.guessScore 0).2, 0, rfl, Nat.one_pos, rfl,
        ?_, ?_⟩
      · intro g' hg'
        have hg0 : g' = 0 := by omega
        subst hg0
        simpa using better_irrefl (G.guessScore 0)
      · intro g' hg'
        exact absurd hg' (Nat.not_lt_zero g')

/-! Lemmas about the three branches of `get_guess`. -/

lemma get_guess_empty {G : Game} (h : G.pattern_list = []) :
    G.get_guess = none := by
  unfold Game.get_guess
  rw [h]
  simp

lemma get_guess_small {G : Game} (hlen : G.pattern_list.length ≤ 2)
    (hne : G.pattern_list ≠ []) :
    G.get_guess = some (G.pattern_list.headD 0, G.pattern_list.length) := by
  unfold Game.get_guess
  rw [if_pos hlen]
  cases hG : G.pattern_list with
  | nil => exact absurd hG hne
  | cons p rest => simp

lemma get_guess_minimax {G : Game} (hlen : 3 ≤ G.pattern_list.length)
    (hP : 0 < G.matches.length) :
    ∃ m t g, G.get_guess = some (g, G.pattern_list.length) ∧
      bestUpTo G G.matches.length = some (m, t, g) ∧ g < G.matches.length ∧
      G.guessScore g = (m, t) ∧
      (∀ g' < G.matches.length, ¬ better (G.guessScore g') (m, t)) ∧
      ∀ g' < g, better (m, t) (G.guessScore g') := by
  obtain ⟨m, t, g, hbest, hg, hscore, hopt, hfirst⟩ := bestUpTo_spec G _ hP
  refine ⟨m, t, g, ?_, hbest, hg, hscore, hopt, hfirst⟩
  unfold Game.get_guess
  rw [if_neg (by omega), hbest]
  rfl

/-! Structural facts about the feedback matrix and the solver state. -/

lemma length_compute_all_matches (b : Board) :
    (compute_all_matches b).length = b.total_pattern_count := by
  simp [compute_all_matches]

lemma row_length_compute_all_matches (b : Board) :
    ∀ row ∈ compute_all_matches b, row.length = b.total_pattern_count := by
  intro row hrow
  simp only [compute_all_matches, List.mem_map] at hrow
  obtain ⟨p, _, rfl⟩ := hrow
  simp

lemma entry_eq_compute_match {G : Game}
    (hM : G.matches = compute_all_matches G.board) {a p : Nat}
    (ha : a < G.board.total_pattern_count)
    (hp : p < G.board.total_pattern_count) :
    G.entry a p = G.board.compute_match a p := by
  have hrow : (compute_all_matches G.board).getD a []
      = (List.range G.board.total_pattern_count).map
          fun guess => G.board.compute_match a guess := by
    unfold compute_all_matches
    rw [List.getD_eq_getElem _ _ (by simpa using ha), List.getElem_map,
      List.getElem_range]
  unfold Game.entry
  rw [hM, hrow]
  rw [List.getD_eq_getElem _ _ (by simpa using hp), List.getElem_map,
    List.getElem_range]

lemma Game_new_board (c h : Nat) : (Game.new c h).board = Board.new c h := rfl

lemma Game_new_matches (c h : Nat) :
    (Game.new c h).matches = compute_all_matches (Board.new c h) := rfl

lemma Game_new_list (c h : Nat) :
    (Game.new c h).pattern_list = List.range (c ^ h) := rfl

lemma apply_match_pattern_list (G : Game) (g : Nat) (mk : MatchKeys) :
    (G.apply_match g mk).pattern_list
      = G.pattern_list.filter fun p => G.entry g p == mk := rfl

lemma apply_match_matches (G : Game) (g : Nat) (mk : MatchKeys) :
    (G.apply_match g mk).matches = G.matches := rfl

lemma apply_match_board (G : Game) (g : Nat) (mk : MatchKeys) :
    (G.apply_match g mk).board = G.board := rfl

lemma apply_match_size_le (G : Game) (g : Nat) (mk : MatchKeys) :
    (G.apply_match g mk).pattern_list.length ≤ G.pattern_list.length :=
  List.length_filter_le _ _

lemma mem_apply_match (G : Game) (g : Nat) (mk : MatchKeys) (p : Nat) :
    p ∈ (G.apply_match g mk).pattern_list
      ↔ p ∈ G.pattern_list ∧ G.entry g p = mk := by
  rw [apply_match_pattern_list, List.mem_filter]
  simp

lemma WF_new (c h : Nat) : (Game.new c h).WF := by
  refine ⟨?_, ?_, ?_⟩
  · rw [Game_new_list]
    exact List.pairwise_lt_range _
  · intro p hp
    rw [Game_new_list] at hp
    rw [Game_new_matches, length_compute_all_matches]
    simpa using List.mem_range.mp hp
  · intro row hrow
    rw [Game_new_matches] at hrow ⊢
    rw [length_compute_all_matches]
    exact row_length_compute_all_matches _ row hrow

lemma WF_apply_match {G : Game} (hWF : G.WF) (g : Nat) (mk : MatchKeys) :
    (G.apply_match g mk).WF := by
  obtain ⟨hsort, hbound, hrows⟩ := hWF
  refine ⟨?_, ?_, ?_⟩
  · rw [apply_match_pattern_list]
    exact List.Pairwise.sublist (List.filter_sublist _) hsort
  · intro p hp
    rw [apply_match_matches]
    exact hbound p ((mem_apply_match G g mk p).mp hp).1
  · intro row hrow
    rw [apply_match_matches] at hrow ⊢
    exact hrows row hrow

lemma Inv_new (c h : Nat) : (Game.new c h).Inv := by
  refine ⟨rfl, ?_, ?_⟩
  · rw [Game_new_list]
    exact List.pairwise_lt_range _
  · intro p hp
    rw [Game_new_list] at hp
    simpa [Game_new_board, Board.total_pattern_count, Board.new]
      using List.mem_range.mp hp

lemma Inv_apply_match {G : Game} (hInv : G.Inv) (g : Nat) (mk : MatchKeys) :
    (G.apply_match g mk).Inv := by
  obtain ⟨hM, hsort, hbound⟩ := hInv
  refine ⟨?_, ?_, ?_⟩
  · rw [apply_match_matches, apply_match_board]
    exact hM
  · rw [apply_match_pattern_list]
    exact List.Pairwise.sublist (List.filter_sublist _) hsort
  · intro p hp
    rw [apply_match_board]
    exact hbound p ((mem_apply_match G g mk p).mp hp).1

lemma Inv_nodup {G : Game} (hInv : G.Inv) : G.pattern_list.Nodup :=
  hInv.2.1.imp fun hab => Nat.ne_of_lt hab

lemma Inv_length_le {G : Game} (hInv : G.Inv) :
    G.pattern_list.length ≤ G.board.total_pattern_count := by
  have hnd : G.pattern_list.Nodup := Inv_nodup hInv
  have hsub : G.pattern_list.toFinset ⊆ Finset.range G.board.total_pattern_count := by
    intro x hx
    rw [Finset.mem_range]
    exact hInv.2.2 x (List.mem_toFinset.mp hx)
  have hcard := Finset.card_le_card hsub
  rwa [List.toFinset_card_of_nodup hnd, Finset.card_range] at hcard

/-! Lemmas about pattern encoding and decoding. -/

lemma findIdx_self_nodup :
    ∀ (cc : List Char), cc.Nodup → ∀ i, (hi : i < cc.length) →
      cc.findIdx? (fun x => x == cc.get ⟨i, hi⟩) = some i := by
  intro cc
  induction cc with
  | nil => intro _ i hi; simp at hi
  | cons c cs ih =>
    intro hnd i hi
    cases i with
    | zero => simp [List.findIdx?_cons]
    | succ j =>
      have hj : j < cs.length := by simpa using hi
      have hget : (c :: cs).get ⟨j + 1, hi⟩ = cs.get ⟨j, hj⟩ := rfl
      rw [hget, List.findIdx?_cons]
      have hne : (c == cs.get ⟨j, hj⟩) = false := by
        refine beq_eq_false_iff_ne.mpr fun he => ?_
        have hmem : c ∈ cs := by
          rw [he]
          exact cs.get_mem _ _
        exact (List.nodup_cons.mp hnd).1 hmem
      rw [hne]
      simp only [Bool.false_eq_true, if_false, List.findIdx?_succ]
      rw [ih (List.nodup_cons.mp hnd).2 j hj]
      rfl

lemma string_to_pattern_loop (cc : List Char) (hnd : cc.Nodup) (c : Nat)
    (hlen : cc.length = c) :
    ∀ (h p acc : Nat), p < c ^ h →
      (digitChars c h p cc).reverse.foldlM
          (fun acc ch =>
            (cc.findIdx? (fun x => x == ch)).map (fun d => acc * c + d)) acc
        = some (acc * c ^ h + p) := by
  intro h
  induction h with
  | zero =>
    intro p acc hp
    have hp0 : p = 0 := by
      have : p < 1 := by simpa using hp
      omega
    subst hp0
    simp [digitChars]
  | succ n ih =>
    intro p acc hp
    have hc : 0 < c := by
      rcases Nat.eq_zero_or_pos c with h0 | h0
      · subst h0
        simp [Nat.zero_pow] at hp
      · exact h0
    have hdiv : p / c < c ^ n := by
      rw [Nat.div_lt_iff_lt_mul hc]
      calc p < c ^ (n + 1) := hp
        _ = c ^ n * c := pow_succ c n
    have hmod : p % c < cc.length := by
      rw [hlen]
      exact Nat.mod_lt _ hc
    rw [digitChars, List.reverse_cons, List.foldlM_append, ih (p / c) acc hdiv]
    have hgetD : cc.getD (p % c) 'A' = cc.get ⟨p % c, hmod⟩ := by
      rw [List.getD_eq_getElem _ _ hmod]
      rfl
    rw [hgetD]
    simp only [List.foldlM_cons, List.foldlM_nil,
      findIdx_self_nodup cc hnd (p % c) hmod, Option.map_some', Option.some_bind]
    have hdm : c * (p / c) + p % c = p := Nat.div_add_mod p c
    have harith : (acc * c ^ n + p / c) * c + p % c = acc * c ^ (n + 1) + p := by
      calc (acc * c ^ n + p / c) * c + p % c
          = acc * (c ^ n * c) + (c * (p / c) + p % c) := by ring
        _ = acc * c ^ (n + 1) + p := by rw [hdm, pow_succ]
    simp [harith]

lemma string_to_pattern_absent (c : Nat) (cc : List Char) (ch : Char)
    (hch : ch ∉ cc) :
    ∀ (s : List Char) (acc : Nat), ch ∈ s →
      s.foldlM
          (fun acc ch =>
            (cc.findIdx? (fun x => x == ch)).map (fun d => acc * c + d)) acc
        = none := by
  intro s
  induction s with
  | nil => intro acc hmem; simp at hmem
  | cons x xs ih =>
    intro acc hmem
    rw [List.foldlM_cons]
    cases hfind : cc.findIdx? (fun y => y == x) with
    | none => simp
    | some d =>
      rcases List.mem_cons.mp hmem with rfl | hxs
      · exfalso
        have hnone : cc.findIdx? (fun y => y == ch) = none :=
          List.findIdx?_eq_none_iff.mpr fun y hy =>
            beq_eq_false_iff_ne.mpr fun he => hch (he ▸ hy)
        rw [hnone] at hfind
        exact Option.noConfusion hfind
      · simp only [Option.map_some', Option.some_bind]
        exact ih _ hxs

/-! Lemmas for the convergence argument. -/

lemma count_pair_le_length (a b : MatchKeys) (hab : a ≠ b) :
    ∀ l : List MatchKeys, l.count a + l.count b ≤ l.length := by
  intro l
  induction l with
  | nil => simp
  | cons x xs ih =>
    simp only [List.count_cons, List.length_cons, beq_iff_eq]
    split_ifs with h1 h2
    · exact absurd (h1.symm.trans h2) hab
    · omega
    · omega
    · omega

lemma apply_match_length_eq_count (G : Game) (g : Nat) (mk : MatchKeys) :
    (G.apply_match g mk).pattern_list.length = (G.projKeys g).count mk := by
  rw [apply_match_pattern_list, ← List.countP_eq_length_filter]
  unfold Game.projKeys
  rw [List.count_eq_countP, List.countP_map]
  rfl

lemma count_le_maxGroup (l : List MatchKeys) (k : MatchKeys) :
    l.count k ≤ maxGroup l := by
  unfold maxGroup
  by_cases hk : k ∈ l
  · exact Finset.le_sup (f := fun k => l.count k) (List.mem_toFinset.mpr hk)
  · rw [List.count_eq_zero_of_not_mem hk]
    exact Nat.zero_le _

lemma entry_self_iff {G : Game} (hInv : G.Inv) {c₀ p : Nat}
    (hc₀ : c₀ < G.board.total_pattern_count)
    (hp : p < G.board.total_pattern_count) :
    G.entry c₀ p = ⟨G.board.hole_count, 0⟩ ↔ p = c₀ := by
  rw [entry_eq_compute_match hInv.1 hc₀ hp]
  rw [compute_match_eq_self_iff G.board hc₀ hp, eq_comm]

lemma count_selfkey {G : Game} (hInv : G.Inv) {c₀ : Nat}
    (hmem : c₀ ∈ G.pattern_list) :
    (G.projKeys c₀).count ⟨G.board.hole_count, 0⟩ = 1 := by
  unfold Game.projKeys
  rw [List.count_eq_countP, List.countP_map]
  have hstep :
      List.countP
          ((fun x => x == (⟨G.board.hole_count, 0⟩ : MatchKeys))
            ∘ fun p => G.entry c₀ p) G.pattern_list
        = List.countP (fun p => p == c₀) G.pattern_list := by
    apply List.countP_congr
    intro p hp
    simp only [Function.comp, beq_iff_eq]
    exact entry_self_iff hInv (hInv.2.2 _ hmem) (hInv.2.2 _ hp)
  rw [hstep, ← List.count_eq_countP]
  exact List.count_eq_one_of_mem (Inv_nodup hInv) hmem

lemma maxGroup_candidate_le {G : Game} (hInv : G.Inv) {c₀ : Nat}
    (hmem : c₀ ∈ G.pattern_list) (hlen : 2 ≤ G.pattern_list.length) :
    maxGroup (G.projKeys c₀) ≤ G.pattern_list.length - 1 := by
  have hself := count_selfkey hInv hmem
  have hplen : (G.projKeys c₀).length = G.pattern_list.length := by
    simp [Game.projKeys]
  unfold maxGroup
  apply Finset.sup_le
  intro k _
  by_cases hkself : k = ⟨G.board.hole_count, 0⟩
  · subst hkself
    omega
  · have hpair := count_pair_le_length k ⟨G.board.hole_count, 0⟩ hkself
      (G.projKeys c₀)
    omega

lemma secret_mem_apply {G : Game} (hInv : G.Inv) {secret g : Nat}
    (hs : secret ∈ G.pattern_list) (hg : g < G.board.total_pattern_count) :
    secret ∈ (G.apply_match g (G.board.compute_match g secret)).pattern_list := by
  rw [mem_apply_match]
  exact ⟨hs, entry_eq_compute_match hInv.1 hg (hInv.2.2 _ hs)⟩

lemma apply_match_two {G : Game} (hInv : G.Inv) {a b secret : Nat}
    (hlist : G.pattern_list = [a, b]) (hs : secret ∈ G.pattern_list) :
    (G.apply_match a (G.board.compute_match a secret)).pattern_list
      = [secret] := by
  have hab : a < b := by
    have hp := hInv.2.1
    rw [hlist] at hp
    exact (List.pairwise_cons.mp hp).1 b (by simp)
  have ha : a < G.board.total_pattern_count := hInv.2.2 a (by rw [hlist]; simp)
  have hb : b < G.board.total_pattern_count := hInv.2.2 b (by rw [hlist]; simp)
  have hentry_a : G.entry a a = ⟨G.board.hole_count, 0⟩ :=
    (entry_self_iff hInv ha ha).mpr rfl
  have hentry_b : G.entry a b ≠ ⟨G.board.hole_count, 0⟩ := by
    intro hcon
    have hba : b = a := (entry_self_iff hInv ha hb).mp hcon
    omega
  have hsab : secret = a ∨ secret = b := by
    rw [hlist] at hs
    simpa using hs
  rw [apply_match_pattern_list, hlist]
  rcases hsab with hsa | hsb
  · rw [hsa]
    have hkey : G.board.compute_match a a = ⟨G.board.hole_count, 0⟩ :=
      compute_match_self _ _
    rw [hkey]
    have h1 : (G.entry a a == (⟨G.board.hole_count, 0⟩ : MatchKeys)) = true := by
      simp [hentry_a]
    have h2 : (G.entry a b == (⟨G.board.hole_count, 0⟩ : MatchKeys)) = false := by
      simp only [beq_eq_false_iff_ne, ne_eq]
      exact hentry_b
    simp [List.filter_cons, h1, h2]
  · rw [hsb]
    have hkey : G.board.compute_match a b = G.entry a b :=
      (entry_eq_compute_match hInv.1 ha hb).symm
    rw [hkey]
    have h1 : (G.entry a a == G.entry a b) = false := by
      refine beq_eq_false_iff_ne.mpr fun he => hentry_b ?_
      rw [← he, hentry_a]
    have h2 : (G.entry a b == G.entry a b) = true := by simp
    simp [List.filter_cons, h1, h2]

lemma playLoop_succ_some (secret n : Nat) (G : Game) {g possibles : Nat}
    (hguess : G.get_guess = some (g, possibles)) :
    playLoop secret (n + 1) G =
      if possibles = 1 then G
      else playLoop secret n (G.apply_match g (G.board.compute_match g secret)) := by
  rw [playLoop, hguess]

lemma playLoop_reaches (secret : Nat) :
    ∀ (fuel : Nat) (G : Game), G.Inv → secret ∈ G.pattern_list →
      G.pattern_list.length ≤ fuel →
      (playLoop secret fuel G).pattern_list = [secret] := by
  intro fuel
  induction fuel with
  | zero =>
    intro G _ hs hl
    exact absurd (List.length_pos_of_mem hs) (by omega)
  | succ n ih =>
    intro G hInv hs hl
    have hpos : 0 < G.pattern_list.length := List.length_pos_of_mem hs
    by_cases h1 : G.pattern_list.length = 1
    · obtain ⟨x, hx⟩ := List.length_eq_one.mp h1
      have hguess := get_guess_small (G := G) (by omega) (by rw [hx]; simp)
      rw [playLoop_succ_some secret n G hguess, if_pos h1, hx]
      have hsx : secret = x := by
        rw [hx] at hs
        simpa using hs
      rw [hsx]
    · by_cases h2 : G.pattern_list.length = 2
      · obtain ⟨a, b, hab⟩ := List.length_eq_two.mp h2
        have hguess := get_guess_small (G := G) (by omega) (by rw [hab]; simp)
        have hhead : G.pattern_list.headD 0 = a := by rw [hab]; rfl
        rw [hhead] at hguess
        rw [playLoop_succ_some secret n G hguess, if_neg (by omega)]
        have hres := apply_match_two hInv hab hs
        apply ih
        · exact Inv_apply_match hInv _ _
        · rw [hres]; simp
        · rw [hres]
          simp only [List.length_singleton]
          omega
      · have hlen3 : 3 ≤ G.pattern_list.length := by omega
        have hsecretP : secret < G.board.total_pattern_count := hInv.2.2 secret hs
        have hmlen : G.matches.length = G.board.total_pattern_count := by
          rw [hInv.1]
          exact length_compute_all_matches _
        have hP : 0 < G.matches.length := by omega
        obtain ⟨m, t, g, hguess, _, hg, hscore, hopt, _⟩ :=
          get_guess_minimax hlen3 hP
        rw [playLoop_succ_some secret n G hguess, if_neg (by omega)]
        have hgP : g < G.board.total_pattern_count := by omega
        have hcount := apply_match_length_eq_count G g
          (G.board.compute_match g secret)
        have hle1 := count_le_maxGroup (G.projKeys g)
          (G.board.compute_match g secret)
        have hm : maxGroup (G.projKeys g) = m := by
          have hcomb := (guessScore_eq G g).symm.trans hscore
          exact ((Prod.mk.injEq _ _ _ _).mp hcomb).1
        have hns : ¬ ((G.guessScore secret).1 < m
            ∨ ((G.guessScore secret).1 = m ∧ (G.guessScore secret).2 < t)) :=
          hopt secret (by omega)
        have hsec_max : (G.guessScore secret).1 = maxGroup (G.projKeys secret) := by
          rw [guessScore_eq]
        have hsec_le : maxGroup (G.projKeys secret) ≤ G.pattern_list.length - 1 :=
          maxGroup_candidate_le hInv hs (by omega)
        apply ih
        · exact Inv_apply_match hInv _ _
        · exact secret_mem_apply hInv hs hgP
        · omega

/-! The claims. -/

/-- C1 (counterexample to the claim as stated): the reachable state `exGame`
has the two candidates `[5, 7]`, so its candidate set has more than one
member, yet `get_guess` takes the `len <= 2` shortcut and returns
candidate 5 with count 2.  Guess 1 has exactly the same
`(row_max, total_length)` score `(1, 2)` as guess 5 and that score is
optimal over the whole universe, so the claimed full search with
ascending-pattern tie-break would have returned guess 1, not 5; nor does
the state fit the claimed "exactly one member" immediate-return shape. -/
theorem C1_counterexample :
    1 < exGame.pattern_list.length ∧
    exGame.get_guess = some (5, 2) ∧
    exGame.guessScore 1 = exGame.guessScore 5 ∧
    (1 : Nat) < 5 ∧
    ∀ g' < exGame.matches.length,
      ¬ better (exGame.guessScore g') (exGame.guessScore 1) := by
  refine ⟨?_, ?_, ?_, ?_, ?_⟩ <;> decide

/-- C1 (amended): when the candidate list is nonempty with at most two
members, `get_guess` returns its first member together with the current
candidate count (so a two-member set is also returned immediately, with
count 2, bypassing the search); for every guess the computed score pair is
(largest equal-key group size of the projected row, sum of squared group
sizes); and when the candidate list has at least three members `get_guess`
evaluates every pattern of the full universe and returns the guess
minimising `(row_max, total_length)` lexicographically, earliest pattern
value first. -/
theorem C1_amended :
    (∀ G : Game, G.pattern_list ≠ [] → G.pattern_list.length ≤ 2 →
      G.get_guess = some (G.pattern_list.headD 0, G.pattern_list.length)) ∧
    (∀ (G : Game) (g : Nat),
      G.guessScore g = (maxGroup (G.projKeys g), sumSqGroup (G.projKeys g))) ∧
    ∀ G : Game, 3 ≤ G.pattern_list.length → 0 < G.matches.length →
      ∃ g, G.get_guess = some (g, G.pattern_list.length) ∧
        g < G.matches.length ∧
        (∀ g' < G.matches.length,
          ¬ better (G.guessScore g') (G.guessScore g)) ∧
        ∀ g' < g, better (G.guessScore g) (G.guessScore g') := by
  refine ⟨?_, ?_, ?_⟩
  · intro G hne hlen
    exact get_guess_small hlen hne
  · intro G g
    exact guessScore_eq G g
  · intro G hlen hP
    obtain ⟨m, t, g, hguess, _, hg, hscore, hopt, hfirst⟩ :=
      get_guess_minimax hlen hP
    refine ⟨g, hguess, hg, ?_, ?_⟩
    · intro g' hg'
      rw [hscore]
      exact hopt g' hg'
    · intro g' hg'
      rw [hscore]
      exact hfirst g' hg'

/-- C1 witness: the shortcut branch at `exGame` (two candidates) and the
minimax branch at `Game.new 3 1` (three candidates). -/
theorem C1_witness :
    ((exGame.pattern_list ≠ [] ∧ exGame.pattern_list.length ≤ 2) ∧
      exGame.get_guess
        = some (exGame.pattern_list.headD 0, exGame.pattern_list.length)) ∧
    (3 ≤ (Game.new 3 1).pattern_list.length
      ∧ 0 < (Game.new 3 1).matches.length) ∧
    ∃ g, (Game.new 3 1).get_guess
        = some (g, (Game.new 3 1).pattern_list.length) ∧
      g < (Game.new 3 1).matches.length ∧
      (∀ g' < (Game.new 3 1).matches.length,
        ¬ better ((Game.new 3 1).guessScore g') ((Game.new 3 1).guessScore g)) ∧
      ∀ g' < g,
        better ((Game.new 3 1).guessScore g) ((Game.new 3 1).guessScore g') :=
  ⟨⟨⟨by decide, by decide⟩, C1_amended.1 exGame (by decide) (by decide)⟩,
    ⟨by decide, by decide⟩,
    C1_amended.2.2 (Game.new 3 1) (by decide) (by decide)⟩

/-- C2: for every board configuration and every secret code of its pattern
universe, the get_guess / apply_match loop driven by feedback
`compute_match(guess, secret)` reaches, within `pattern_count` turns
(the loop fuel), the state whose candidate set is exactly `[secret]`. -/
theorem C2_convergence (c h secret : Nat)
    (hsecret : secret < (Board.new c h).total_pattern_count) :
    (playLoop secret ((Board.new c h).total_pattern_count)
        (Game.new c h)).pattern_list = [secret] := by
  apply playLoop_reaches
  · exact Inv_new c h
  · rw [Game_new_list]
    exact List.mem_range.mpr hsecret
  · rw [Game_new_list]
    simp [Board.total_pattern_count, Board.new]

/-- C2 witness: the 3-colour 2-hole board with secret 5 converges to `[5]`
within 9 turns. -/
theorem C2_witness :
    5 < (Board.new 3 2).total_pattern_count ∧
    (playLoop 5 ((Board.new 3 2).total_pattern_count)
        (Game.new 3 2)).pattern_list = [5] :=
  ⟨by decide, C2_convergence 3 2 5 (by decide)⟩

/-- C3: for every state, every valid guess and every observed feedback,
`apply_match` keeps exactly the candidates whose matrix entry against the
guess equals the observed feedback: membership is characterised by the
equality check, the size never grows, and every removed candidate fails
the check. -/
theorem C3_apply_match_filters (G : Game) (guess : Nat) (mk : MatchKeys)
    (_hguess : guess < G.matches.length) :
    (∀ p, p ∈ (G.apply_match guess mk).pattern_list
        ↔ p ∈ G.pattern_list ∧ G.entry guess p = mk) ∧
    (G.apply_match guess mk).pattern_list.length ≤ G.pattern_list.length ∧
    ∀ p ∈ G.pattern_list, p ∉ (G.apply_match guess mk).pattern_list →
      G.entry guess p ≠ mk := by
  refine ⟨fun p => mem_apply_match G guess mk p, apply_match_size_le G guess mk,
    fun p hp hnot hcon => hnot ?_⟩
  exact (mem_apply_match G guess mk p).mpr ⟨hp, hcon⟩

/-- C3 witness: filtering the fresh 3-colour 2-hole game on guess 0 with
feedback `(1,0)`. -/
theorem C3_witness :
    0 < (Game.new 3 2).matches.length ∧
    (∀ p, p ∈ ((Game.new 3 2).apply_match 0 ⟨1, 0⟩).pattern_list
        ↔ p ∈ (Game.new 3 2).pattern_list ∧ (Game.new 3 2).entry 0 p = ⟨1, 0⟩) ∧
    ((Game.new 3 2).apply_match 0 ⟨1, 0⟩).pattern_list.length
      ≤ (Game.new 3 2).pattern_list.length ∧
    ∀ p ∈ (Game.new 3 2).pattern_list,
      p ∉ ((Game.new 3 2).apply_match 0 ⟨1, 0⟩).pattern_list →
        (Game.new 3 2).entry 0 p ≠ ⟨1, 0⟩ :=
  ⟨by decide, C3_apply_match_filters (Game.new 3 2) 0 ⟨1, 0⟩ (by decide)⟩

/-- C4: `compute_match` is symmetric in its two pattern arguments, and
consequently the feedback matrix built by `compute_all_matches` is
symmetric at every in-range index pair. -/
theorem C4_compute_match_symmetric :
    (∀ (b : Board) (p g : Nat), b.compute_match p g = b.compute_match g p) ∧
    ∀ (b : Board) (p g : Nat), p < b.total_pattern_count →
      g < b.total_pattern_count →
      ((compute_all_matches b).getD p []).getD g ⟨0, 0⟩
        = ((compute_all_matches b).getD g []).getD p ⟨0, 0⟩ := by
  refine ⟨compute_match_symm, ?_⟩
  intro b p g hp hg
  have h1 : (Game.mk b (compute_all_matches b) []).entry p g
      = b.compute_match p g := entry_eq_compute_match rfl hp hg
  have h2 : (Game.mk b (compute_all_matches b) []).entry g p
      = b.compute_match g p := entry_eq_compute_match rfl hg hp
  exact h1.trans ((compute_match_symm b p g).trans h2.symm)

/-- C4 witness: symmetry at the pair (1, 3) on the 3-colour 2-hole board,
both for the function and for the materialised matrix. -/
theorem C4_witness :
    (Board.new 3 2).compute_match 1 3 = (Board.new 3 2).compute_match 3 1 ∧
    1 < (Board.new 3 2).total_pattern_count ∧
    3 < (Board.new 3 2).total_pattern_count ∧
    ((compute_all_matches (Board.new 3 2)).getD 1 []).getD 3 ⟨0, 0⟩
      = ((compute_all_matches (Board.new 3 2)).getD 3 []).getD 1 ⟨0, 0⟩ :=
  ⟨C4_compute_match_symmetric.1 (Board.new 3 2) 1 3, by decide, by decide,
    C4_compute_match_symmetric.2 (Board.new 3 2) 1 3 (by decide) (by decide)⟩

/-- C5 (counterexample to the claim as stated): the reachable state
`exEmpty` has an empty candidate set and `get_guess` on it hits the
`pattern_list[0]` index panic, modelled by `none` — there is no explicit
failure channel in its Rust return type `(u32, u32)`, so the core does not
"fail explicitly rather than panicking". -/
theorem C5_counterexample :
    exEmpty.pattern_list = [] ∧ exEmpty.get_guess = none := by
  exact ⟨by decide, by decide⟩

/-- C5 (amended): when the candidate set is empty, `get_guess` panics on
indexing the empty candidate vector (the `none` outcome of the model); the
core has no guard, and detecting emptiness is the caller's responsibility. -/
theorem C5_amended (G : Game) (h : G.pattern_list = []) :
    G.get_guess = none :=
  get_guess_empty h

/-- C5 witness: the amended statement at the emptied state `exEmpty`. -/
theorem C5_witness : exEmpty.get_guess = none :=
  C5_amended exEmpty (by decide)

/-- C6: a string containing a symbol outside the configured alphabet makes
`string_to_pattern` fail (the lookup error propagates to the caller); no
pattern value is silently produced. -/
theorem C6_decode_error (b : Board) (cc s : List Char) (ch : Char)
    (hch : ch ∈ s) (habs : ch ∉ cc) :
    b.string_to_pattern s cc = none := by
  unfold Board.string_to_pattern
  exact string_to_pattern_absent b.color_count cc ch habs s 0 hch

/-- C6 witness: decoding "AD" over the alphabet A,B,C fails. -/
theorem C6_witness :
    'D' ∈ ['A', 'D'] ∧ 'D' ∉ ['A', 'B', 'C'] ∧
    (Board.new 3 2).string_to_pattern ['A', 'D'] ['A', 'B', 'C'] = none :=
  ⟨by decide, by decide,
    C6_decode_error (Board.new 3 2) ['A', 'B', 'C'] ['A', 'D'] 'D'
      (by decide) (by decide)⟩

/-- C7: for every board, every duplicate-free alphabet of exactly
`color_count` symbols, and every pattern of the universe, decoding the
encoded string returns the original pattern. -/
theorem C7_roundtrip (b : Board) (cc : List Char) (hnd : cc.Nodup)
    (hlen : cc.length = b.color_count) (p : Nat)
    (hp : p < b.total_pattern_count) :
    b.string_to_pattern (b.pattern_to_string p cc) cc = some p := by
  unfold Board.string_to_pattern Board.pattern_to_string
  have hloop := string_to_pattern_loop cc hnd b.color_count hlen
    b.hole_count p 0 (by simpa [Board.total_pattern_count] using hp)
  simpa using hloop

/-- C7 witness: pattern 5 on the 3-colour 2-hole board with alphabet
A,B,C round-trips. -/
theorem C7_witness :
    (['A', 'B', 'C'] : List Char).Nodup ∧
    (['A', 'B', 'C'] : List Char).length = (Board.new 3 2).color_count ∧
    5 < (Board.new 3 2).total_pattern_count ∧
    (Board.new 3 2).string_to_pattern
        ((Board.new 3 2).pattern_to_string 5 ['A', 'B', 'C']) ['A', 'B', 'C']
      = some 5 :=
  ⟨by decide, by decide, by decide,
    C7_roundtrip (Board.new 3 2) ['A', 'B', 'C'] (by decide) (by decide) 5
      (by decide)⟩

/-- C8: on every valid board (positive colour count) and every in-range
pair of patterns, the feedback satisfies
`exact_count + color_count <= hole_count`. -/
theorem C8_match_bound (b : Board) (hc : 0 < b.color_count) (p g : Nat)
    (_hp : p < b.total_pattern_count) (_hg : g < b.total_pattern_count) :
    (b.compute_match p g).exact_count + (b.compute_match p g).color_count
      ≤ b.hole_count := by
  simp only [Board.compute_match]
  have H := matchLoop_sum b.color_count hc b.hole_count p g 0
    (List.replicate b.color_count 0) (List.replicate b.color_count 0)
    (by simp)
  have hmin := sum_zipWith_min_le
    (matchLoop b.color_count b.hole_count p g 0
      (List.replicate b.color_count 0) (List.replicate b.color_count 0)).2.1
    (matchLoop b.color_count b.hole_count p g 0
      (List.replicate b.color_count 0) (List.replicate b.color_count 0)).2.2
  simp only [List.sum_replicate, smul_eq_mul, mul_zero, Nat.zero_add] at H
  omega

/-- C8 witness: the bound at the pair (1, 3) on the 3-colour 2-hole
board. -/
theorem C8_witness :
    0 < (Board.new 3 2).color_count ∧
    1 < (Board.new 3 2).total_pattern_count ∧
    3 < (Board.new 3 2).total_pattern_count ∧
    ((Board.new 3 2).compute_match 1 3).exact_count
        + ((Board.new 3 2).compute_match 1 3).color_count
      ≤ (Board.new 3 2).hole_count :=
  ⟨by decide, by decide, by decide,
    C8_match_bound (Board.new 3 2) (by decide) 1 3 (by decide) (by decide)⟩

/-- C9: the concrete 3-colour (A,B,C) 2-hole examples: 9 patterns, the
stated encodings of 0, 4, 8, and the stated feedback values for (0,1) and
(1,3). -/
theorem C9_examples :
    (Board.new 3 2).total_pattern_count = 9 ∧
    (Board.new 3 2).pattern_to_string 0 ['A', 'B', 'C'] = ['A', 'A'] ∧
    (Board.new 3 2).pattern_to_string 4 ['A', 'B', 'C'] = ['B', 'B'] ∧
    (Board.new 3 2).pattern_to_string 8 ['A', 'B', 'C'] = ['C', 'C'] ∧
    (Board.new 3 2).compute_match 0 1 = ⟨1, 0⟩ ∧
    (Board.new 3 2).compute_match 1 3 = ⟨0, 2⟩ := by
  refine ⟨?_, ?_, ?_, ?_, ?_, ?_⟩ <;> decide

/-- C10: the candidate list is a strictly increasing list of indices below
the matrix dimension and all matrix rows are square; this holds after
`Game::new`, is preserved by every `apply_match`, and puts every
candidate lookup in any matrix row in bounds. -/
theorem C10_candidate_invariant :
    (∀ c h : Nat, (Game.new c h).WF) ∧
    (∀ (G : Game), G.WF → ∀ (guess : Nat) (mk : MatchKeys),
      (G.apply_match guess mk).WF) ∧
    ∀ (G : Game), G.WF → ∀ g < G.matches.length, ∀ p ∈ G.pattern_list,
      p < (G.matches.getD g []).length := by
  refine ⟨WF_new, fun G hWF guess mk => WF_apply_match hWF guess mk, ?_⟩
  intro G hWF g hglt p hp
  obtain ⟨_, hbound, hrows⟩ := hWF
  have hrow : G.matches.getD g [] ∈ G.matches := by
    rw [List.getD_eq_getElem _ _ hglt]
    exact List.getElem_mem _
  rw [hrows _ hrow]
  exact hbound p hp

/-- C10 witness: the invariant after `Game::new(3,2)`, after one
`apply_match`, and the in-bounds lookup of candidate 5 in row 4. -/
theorem C10_witness :
    (Game.new 3 2).WF ∧
    ((Game.new 3 2).apply_match 4 ⟨1, 0⟩).WF ∧
    (4 < (Game.new 3 2).matches.length ∧ 5 ∈ (Game.new 3 2).pattern_list ∧
      5 < ((Game.new 3 2).matches.getD 4 []).length) :=
  ⟨C10_candidate_invariant.1 3 2,
    C10_candidate_invariant.2.1 (Game.new 3 2)
      (C10_candidate_invariant.1 3 2) 4 ⟨1, 0⟩,
    by decide, by decide,
    C10_candidate_invariant.2.2 (Game.new 3 2)
      (C10_candidate_invariant.1 3 2) 4 (by decide) 5 (by decide)⟩
